import Mathlib

/-!
Verification of the atom-quality scoring and sequence-selection core of the
yara-x compiler (`src/compiler/atoms/quality.rs`), via a shallow embedding.

Bytes and masks are modelled as natural numbers below 256.  Quality scores
are `i32` in the source; atoms handled by the compiler are only a few bytes
long, so the score arithmetic never overflows and is modelled exactly over
`ℤ`.  The `u32` fields of `SeqQuality` are modelled as `ℕ`, with the one
overflowing operation of the source (`min_atom_len + 1`) taken modulo
`2 ^ 32`, matching the wrapping semantics of a release build.
-/

/-- Number of one bits among the low 8 bits, as `u8::count_ones`. -/
def countOnes8 (m : ℕ) : ℕ :=
  (List.range 8).countP (fun i => m.testBit i)

/-- Number of zero bits among the low 8 bits, as `u8::count_zeros`. -/
def countZeros8 (m : ℕ) : ℕ :=
  8 - countOnes8 m

/-- Per-byte contribution of a fully known byte, the `match *byte` of
`masked_atom_quality`: common bytes 0x20/0x90/0xcc/0xff give 12, zero gives
6, ASCII letters give 18, anything else gives 20. -/
def byteContrib (b : ℕ) : ℤ :=
  if b = 0x20 ∨ b = 0x90 ∨ b = 0xcc ∨ b = 0xff then 12
  else if b = 0x00 then 6
  else if (0x61 ≤ b ∧ b ≤ 0x7a) ∨ (0x41 ≤ b ∧ b ≤ 0x5a) then 18
  else 20

/-- The mutable state of the scoring loop of `masked_atom_quality`:
the accumulated quality `q`, the set of fully-known byte values seen so far
(the `bytes_present` bit array), and the running `atom_len`. -/
structure ScanState where
  q : ℤ
  present : Finset ℕ
  atomLen : ℕ
  deriving DecidableEq

/-- One iteration of the `for (byte, mask)` loop of `masked_atom_quality`. -/
def scanStep (s : ScanState) (bm : ℕ × ℕ) : ScanState :=
  if countZeros8 bm.2 > 0 then
    { q := s.q + (2 * (countOnes8 bm.2 : ℤ) - (countZeros8 bm.2 : ℤ))
      present := s.present
      atomLen := s.atomLen + 1 }
  else
    { q := s.q + byteContrib bm.1
      present := insert bm.1 s.present
      atomLen := s.atomLen + 1 }

/-- The whole scoring loop: `bytes.zip(masks)` folded through `scanStep`
from the initial state. -/
def scanAtom (values masks : List ℕ) : ScanState :=
  (values.zip masks).foldl scanStep ⟨0, ∅, 0⟩

/-- The final adjustment of `masked_atom_quality`, applied after the loop.
When `bytes_present` holds exactly one value, `first_one()` returns that
unique value, so matching it against the five common constants is the same
as testing their membership in the set. -/
def uniqueAdjust (present : Finset ℕ) (len : ℕ) : ℤ :=
  if present.card = 1 then
    if 0x00 ∈ present ∨ 0x20 ∈ present ∨ 0x90 ∈ present ∨
        0xcc ∈ present ∨ 0xff ∈ present then
      -(10 * (len : ℤ))
    else 2
  else 2 * (present.card : ℤ)

/-- `masked_atom_quality`: loop over the zipped inputs, then apply the
uniqueness adjustment. -/
def masked_atom_quality (values masks : List ℕ) : ℤ :=
  (scanAtom values masks).q +
    uniqueAdjust (scanAtom values masks).present (scanAtom values masks).atomLen

/-- `atom_quality`: score against `iter::repeat(&0xff)`; zipping with the
infinite repetition of 0xff pairs every byte with the mask 0xff. -/
def atom_quality (values : List ℕ) : ℤ :=
  masked_atom_quality values (List.replicate values.length 0xff)

example : atom_quality [0x01] = 22 := by decide
example : atom_quality [0x01, 0x02] = 44 := by decide
example : atom_quality [0x00, 0x01] = 30 := by decide
example : atom_quality [0x61, 0x62] = 40 := by decide
example : atom_quality [0x61, 0x61] = 38 := by decide
example : masked_atom_quality [0x01, 0x02, 0x03] [0xff, 0x00, 0xff] = 36 := by decide
example : masked_atom_quality [0x01, 0x02, 0x03] [0xff, 0x0f, 0xff] = 48 := by decide
example : masked_atom_quality [0x01, 0x02, 0x03, 0x04] [0xff, 0x00, 0x0f, 0xff] = 40 := by decide

/-- `2 ^ 32`, the modulus of `u32` arithmetic. -/
def u32Mod : ℕ := 4294967296

/-- `u32::MAX`. -/
def u32Max : ℕ := 4294967295

/-- `i32::MIN`. -/
def i32Min : ℤ := -2147483648

/-- The aggregate quality of a candidate literal sequence, as the Rust
struct `SeqQuality { seq_len: u32, min_atom_len: u32, min_atom_quality: i32 }`.
The `u32` fields are modelled as `ℕ` and the `i32` field as `ℤ`; theorems
quantifying over the Rust type carry the corresponding range bounds. -/
structure SeqQuality where
  seq_len : ℕ
  min_atom_len : ℕ
  min_atom_quality : ℤ
  deriving DecidableEq

/-- `SeqQuality::min()`, the sentinel worst value. -/
def SeqQuality.min : SeqQuality :=
  { seq_len := u32Max, min_atom_len := 0, min_atom_quality := i32Min }

/-- The `PartialOrd` implementation of `SeqQuality`.  The two adjacency
tests add 1 to a `u32`, which wraps when the operand is `u32::MAX`
(release-build semantics), hence the `% u32Mod`; the `seq_len` products are
computed in `usize` and cannot overflow for `u32` operands, so they are
modelled exactly. -/
def SeqQuality.pcmp (a b : SeqQuality) : Option Ordering :=
  if a.min_atom_quality > b.min_atom_quality then some .gt
  else if a.min_atom_len = b.min_atom_len then
    if a.min_atom_quality = b.min_atom_quality then
      if a.seq_len < b.seq_len then some .gt else some .lt
    else if a.min_atom_quality > b.min_atom_quality then some .gt
    else some .lt
  else if (a.min_atom_len + 1) % u32Mod = b.min_atom_len then
    if a.seq_len * 256 ≤ b.seq_len then some .gt else some .lt
  else if a.min_atom_len = (b.min_atom_len + 1) % u32Mod then
    if a.seq_len < b.seq_len * 256 then some .gt else some .lt
  else if a.min_atom_quality > b.min_atom_quality ∨
      a.min_atom_len > b.min_atom_len then some .gt
  else some .lt

/-- The derived `PartialOrd` of `Option<SeqQuality>`: `None` is below any
`Some`, and two `Some`s compare by `SeqQuality.pcmp`. -/
def optCmp (a b : Option SeqQuality) : Option Ordering :=
  match a, b with
  | none, none => some .eq
  | none, some _ => some .lt
  | some _, none => some .gt
  | some x, some y => x.pcmp y

/-- The minimum of a list, with a default for the empty list; models
`Iterator::min().unwrap_or(d)`. -/
def listMinD {α : Type} [Min α] (d : α) : List α → α
  | [] => d
  | x :: xs => xs.foldl Min.min x

/-- A candidate literal sequence (`regex_syntax::hir::literal::Seq`),
reduced to what `seq_quality` consumes: `none` when the sequence is
unbounded (infinite), otherwise the list of its literals, each a list of
bytes.  For a bounded sequence, `len()` is the number of literals,
`min_literal_len()` is the length of the shortest literal (`none` when
empty), and `literals()` is the list itself. -/
def LitSeq : Type := Option (List (List ℕ))

/-- `seq_quality`: `none` for an unbounded sequence; otherwise the literal
count, the minimum literal length (0 when empty) and the minimum literal
quality (`i32::MIN` when empty).  The two length fields pass through an
`as u32` cast, modelled by `% u32Mod`. -/
def seq_quality (seq : LitSeq) : Option SeqQuality :=
  Option.map
    (fun lits =>
      { seq_len := lits.length % u32Mod
        min_atom_len := listMinD 0 (lits.map List.length) % u32Mod
        min_atom_quality := listMinD i32Min (lits.map atom_quality) })
    seq

example : SeqQuality.pcmp ⟨1, 3, 5⟩ ⟨1, 2, 10⟩ = some .gt := by decide
example : SeqQuality.pcmp ⟨1, 2, 10⟩ ⟨1, 3, 5⟩ = some .gt := by decide
example : SeqQuality.pcmp SeqQuality.min ⟨16777216, u32Max, i32Min⟩ = some .gt := by decide
example : SeqQuality.pcmp ⟨16777216, u32Max, i32Min⟩ SeqQuality.min = some .lt := by decide
example : seq_quality (some [[0x61, 0x62], [0x63]]) =
    some ⟨2, 1, atom_quality [0x63]⟩ := by decide
example : seq_quality (some []) = some ⟨0, 0, i32Min⟩ := by decide
example : seq_quality (none : LitSeq) = none := by decide

/-! ### Helper lemmas about the scan loop -/

/-- The quality contribution of one `(byte, mask)` position of the loop. -/
def stepContrib (bm : ℕ × ℕ) : ℤ :=
  if countZeros8 bm.2 > 0 then
    2 * (countOnes8 bm.2 : ℤ) - (countZeros8 bm.2 : ℤ)
  else byteContrib bm.1

/-- The byte values recorded in `bytes_present` by a run of the loop:
exactly the bytes of the positions whose mask has no zero bit. -/
def recordsOf (l : List (ℕ × ℕ)) : Finset ℕ :=
  ((l.filter (fun bm => countZeros8 bm.2 = 0)).map Prod.fst).toFinset

lemma scan_q (l : List (ℕ × ℕ)) :
    ∀ s : ScanState, (l.foldl scanStep s).q = s.q + (l.map stepContrib).sum := by
  induction l with
  | nil => intro s; simp
  | cons hd tl ih =>
    intro s
    simp only [List.foldl_cons, List.map_cons, List.sum_cons, ih]
    unfold scanStep stepContrib
    split_ifs <;> simp <;> ring

lemma scan_present (l : List (ℕ × ℕ)) :
    ∀ s : ScanState, (l.foldl scanStep s).present = s.present ∪ recordsOf l := by
  induction l with
  | nil => intro s; simp [recordsOf]
  | cons hd tl ih =>
    intro s
    simp only [List.foldl_cons, ih]
    unfold scanStep recordsOf
    split_ifs with h
    · simp only [List.filter_cons]
      have : ¬ (countZeros8 hd.2 = 0) := by omega
      simp [this]
    · simp only [List.filter_cons]
      have hz : countZeros8 hd.2 = 0 := by omega
      simp only [hz, List.map_cons, List.toFinset_cons]
      have hif : (decide (countZeros8 hd.2 = 0) = true) := by simp [hz]
      simp only [hz, decide_eq_true_eq, if_pos]
      ext x
      simp only [Finset.mem_union, Finset.mem_insert, List.mem_toFinset,
        List.map_cons, List.mem_cons]
      tauto

lemma scan_atomLen (l : List (ℕ × ℕ)) :
    ∀ s : ScanState, (l.foldl scanStep s).atomLen = s.atomLen + l.length := by
  induction l with
  | nil => intro s; simp
  | cons hd tl ih =>
    intro s
    simp only [List.foldl_cons, ih]
    unfold scanStep
    split_ifs <;> simp <;> omega

lemma scanAtom_q (values masks : List ℕ) :
    (scanAtom values masks).q = ((values.zip masks).map stepContrib).sum := by
  unfold scanAtom
  rw [scan_q]
  simp

lemma scanAtom_present (values masks : List ℕ) :
    (scanAtom values masks).present = recordsOf (values.zip masks) := by
  unfold scanAtom
  rw [scan_present]
  simp

lemma scanAtom_atomLen (values masks : List ℕ) :
    (scanAtom values masks).atomLen = Min.min values.length masks.length := by
  unfold scanAtom
  rw [scan_atomLen]
  simp

/-- `masked_atom_quality` restated through the loop decomposition. -/
lemma masked_atom_quality_eq (values masks : List ℕ) :
    masked_atom_quality values masks =
      ((values.zip masks).map stepContrib).sum +
        uniqueAdjust (recordsOf (values.zip masks))
          (Min.min values.length masks.length) := by
  unfold masked_atom_quality
  rw [scanAtom_q, scanAtom_present, scanAtom_atomLen]

/-! ### Helper lemmas about `listMinD` -/

lemma foldl_min_mem {α : Type} [LinearOrder α] (xs : List α) :
    ∀ a : α, xs.foldl Min.min a ∈ a :: xs := by
  induction xs with
  | nil => intro a; simp
  | cons y ys ih =>
    intro a
    simp only [List.foldl_cons]
    have h := ih (Min.min a y)
    rcases List.mem_cons.mp h with h1 | h1
    · rw [h1]
      rcases min_choice a y with hc | hc <;> rw [hc] <;> simp
    · exact List.mem_cons_of_mem _ (List.mem_cons_of_mem _ h1)

lemma foldl_min_le_seed {α : Type} [LinearOrder α] (xs : List α) :
    ∀ a : α, xs.foldl Min.min a ≤ a := by
  induction xs with
  | nil => intro a; simp
  | cons y ys ih =>
    intro a
    exact le_trans (ih (Min.min a y)) (min_le_left a y)

lemma foldl_min_le {α : Type} [LinearOrder α] (xs : List α) :
    ∀ a x : α, x ∈ a :: xs → xs.foldl Min.min a ≤ x := by
  induction xs with
  | nil =>
    intro a x hx
    simp only [List.mem_singleton] at hx
    simp [hx]
  | cons y ys ih =>
    intro a x hx
    rcases List.mem_cons.mp hx with h1 | h1
    · rw [h1]
      exact le_trans (foldl_min_le_seed ys (Min.min a y)) (min_le_left a y)
    · rcases List.mem_cons.mp h1 with h2 | h2
      · rw [h2]
        exact le_trans (foldl_min_le_seed ys (Min.min a y)) (min_le_right a y)
      · exact ih (Min.min a y) x (List.mem_cons_of_mem _ h2)

lemma listMinD_mem {α : Type} [LinearOrder α] (d : α) (l : List α) (h : l ≠ []) :
    listMinD d l ∈ l := by
  cases l with
  | nil => exact absurd rfl h
  | cons x xs => exact foldl_min_mem xs x

lemma listMinD_le {α : Type} [LinearOrder α] (d : α) (l : List α)
    (x : α) (hx : x ∈ l) : listMinD d l ≤ x := by
  cases l with
  | nil => simp at hx
  | cons y ys => exact foldl_min_le ys y x hx

/-! ### Bit-count helper lemmas -/

/-- The mask has at least one zero bit among its 8 bits. -/
def hasZeroBit (m : ℕ) : Prop :=
  ∃ i, i < 8 ∧ m.testBit i = false

instance (m : ℕ) : Decidable (hasZeroBit m) := by
  unfold hasZeroBit
  infer_instance

lemma countZeros8_pos_iff (m : ℕ) : 0 < countZeros8 m ↔ hasZeroBit m := by
  unfold countZeros8 countOnes8 hasZeroBit
  have hle : (List.range 8).countP (fun i => m.testBit i) ≤ 8 := by
    have := List.countP_le_length (p := fun i => m.testBit i) (l := List.range 8)
    simpa using this
  constructor
  · intro h
    by_contra hc
    push_neg at hc
    have hall : ∀ a ∈ List.range 8, (fun i => m.testBit i) a = true := by
      intro a ha
      have hb := hc a (List.mem_range.mp ha)
      simpa using hb
    have heq : (List.range 8).countP (fun i => m.testBit i) = 8 := by
      have := List.countP_eq_length.mpr hall
      simpa using this
    omega
  · rintro ⟨i, hi, hbit⟩
    have hlt : (List.range 8).countP (fun i => m.testBit i) < 8 := by
      rcases Nat.lt_or_ge ((List.range 8).countP (fun i => m.testBit i)) 8 with h | h
      · exact h
      · exfalso
        have heq : (List.range 8).countP (fun i => m.testBit i) =
            (List.range 8).length := by
          simp only [List.length_range]
          omega
        have hall := List.countP_eq_length.mp heq
        have := hall i (List.mem_range.mpr hi)
        simp only [hbit] at this
        exact Bool.false_ne_true this
    omega

lemma not_hasZeroBit_iff (m : ℕ) (hm : m < 256) : ¬ hasZeroBit m ↔ m = 0xff := by
  constructor
  · intro h
    have hall : ∀ i, i < 8 → m.testBit i = true := by
      intro i hi
      by_contra hc
      exact h ⟨i, hi, by simpa using hc⟩
    apply Nat.eq_of_testBit_eq
    intro i
    rcases Nat.lt_or_ge i 8 with hi | hi
    · rw [hall i hi]
      have h255 : (255 : ℕ) = 2 ^ 8 - 1 := by norm_num
      rw [show (0xff : ℕ) = 2 ^ 8 - 1 from by norm_num,
        Nat.testBit_two_pow_sub_one]
      simp [hi]
    · have hpow : (256 : ℕ) ≤ 2 ^ i := by
        calc (256 : ℕ) = 2 ^ 8 := by norm_num
          _ ≤ 2 ^ i := Nat.pow_le_pow_right (by norm_num) hi
      have hm' : m < 2 ^ i := lt_of_lt_of_le hm hpow
      have h255 : (0xff : ℕ) < 2 ^ i := lt_of_lt_of_le (by norm_num) hpow
      rw [Nat.testBit_lt_two_pow hm', Nat.testBit_lt_two_pow h255]
  · intro h
    subst h
    intro hz
    exact absurd hz (by decide)

/-! ### C1: the per-position contribution -/

/-- The per-position contribution as the specification describes it: a mask
with at least one zero bit contributes `2 * ones - zeros`; the mask 0xff
contributes according to the byte-value class. -/
def specContrib (b m : ℕ) : ℤ :=
  if hasZeroBit m then 2 * (countOnes8 m : ℤ) - (countZeros8 m : ℤ)
  else if b = 0x20 ∨ b = 0x90 ∨ b = 0xcc ∨ b = 0xff then 12
  else if b = 0x00 then 6
  else if (0x61 ≤ b ∧ b ≤ 0x7a) ∨ (0x41 ≤ b ∧ b ≤ 0x5a) then 18
  else 20

/-- A byte in the ASCII ranges a-z or A-Z. -/
def isLetterByte (b : ℕ) : Prop :=
  (0x61 ≤ b ∧ b ≤ 0x7a) ∨ (0x41 ≤ b ∧ b ≤ 0x5a)

instance (b : ℕ) : Decidable (isLetterByte b) := by
  unfold isLetterByte
  infer_instance

lemma stepContrib_eq_spec (bm : ℕ × ℕ) : stepContrib bm = specContrib bm.1 bm.2 := by
  unfold stepContrib specContrib byteContrib
  by_cases hz : 0 < countZeros8 bm.2
  · rw [if_pos hz, if_pos ((countZeros8_pos_iff bm.2).mp hz)]
  · rw [if_neg hz, if_neg (fun h => hz ((countZeros8_pos_iff bm.2).mpr h))]

/-- C1: the per-position pass of `masked_atom_quality` sums one contribution
per position, iterating up to the shorter input's length; a mask with at
least one zero bit contributes `2 * ones - zeros` (so mask 0x00 gives -8 and
masks 0x0f and 0xf0 give +4), while mask 0xff contributes +12 for the bytes
0x20/0x90/0xcc/0xff, +6 for 0x00, +18 for ASCII letters and +20 for every
other byte value. -/
theorem C1_per_position_contributions (values masks : List ℕ) :
    ((scanAtom values masks).q =
      ((values.zip masks).map (fun bm => specContrib bm.1 bm.2)).sum) ∧
    (∀ b m : ℕ, hasZeroBit m →
      specContrib b m = 2 * (countOnes8 m : ℤ) - (countZeros8 m : ℤ)) ∧
    (∀ b : ℕ, specContrib b 0x00 = -8 ∧ specContrib b 0x0f = 4 ∧
      specContrib b 0xf0 = 4) ∧
    (∀ b : ℕ,
      ((b = 0x20 ∨ b = 0x90 ∨ b = 0xcc ∨ b = 0xff) → specContrib b 0xff = 12) ∧
      (b = 0x00 → specContrib b 0xff = 6) ∧
      (isLetterByte b → specContrib b 0xff = 18) ∧
      (¬(b = 0x20 ∨ b = 0x90 ∨ b = 0xcc ∨ b = 0xff) → b ≠ 0x00 →
        ¬ isLetterByte b → specContrib b 0xff = 20)) := by
  refine ⟨?_, ?_, ?_, ?_⟩
  · rw [scanAtom_q]
    have hfun : stepContrib = fun bm : ℕ × ℕ => specContrib bm.1 bm.2 :=
      funext stepContrib_eq_spec
    rw [hfun]
  · intro b m hz
    unfold specContrib
    rw [if_pos hz]
  · intro b
    refine ⟨?_, ?_, ?_⟩ <;>
      · unfold specContrib
        rw [if_pos (by decide)]
        decide
  · intro b
    have hnz : ¬ hasZeroBit 0xff := by decide
    refine ⟨?_, ?_, ?_, ?_⟩
    · intro h
      unfold specContrib
      rw [if_neg hnz, if_pos h]
    · intro h
      unfold specContrib
      rw [if_neg hnz, if_neg (by omega), if_pos h]
    · intro h
      unfold specContrib isLetterByte at *
      rw [if_neg hnz, if_neg (by omega), if_neg (by omega), if_pos h]
    · intro h1 h2 h3
      unfold specContrib isLetterByte at *
      rw [if_neg hnz, if_neg h1, if_neg h2, if_neg h3]

/-- Witness for C1 at concrete inputs. -/
theorem C1_per_position_contributions_witness :
    (scanAtom [0x01, 0x02, 0x03] [0xff, 0x00, 0x0f]).q =
      specContrib 0x01 0xff + (specContrib 0x02 0x00 + (specContrib 0x03 0x0f + 0)) ∧
    specContrib 0x05 0x0f = 2 * (countOnes8 0x0f : ℤ) - (countZeros8 0x0f : ℤ) ∧
    specContrib 0x07 0x00 = -8 ∧
    specContrib 0x20 0xff = 12 ∧
    specContrib 0x00 0xff = 6 ∧
    specContrib 0x61 0xff = 18 ∧
    specContrib 0x07 0xff = 20 := by
  refine ⟨?_, ?_, ?_, ?_, ?_, ?_, ?_⟩
  · have h := (C1_per_position_contributions [0x01, 0x02, 0x03] [0xff, 0x00, 0x0f]).1
    simpa using h
  · exact (C1_per_position_contributions [] []).2.1 0x05 0x0f (by decide)
  · exact ((C1_per_position_contributions [] []).2.2.1 0x07).1
  · exact ((C1_per_position_contributions [] []).2.2.2 0x20).1 (by decide)
  · exact ((C1_per_position_contributions [] []).2.2.2 0x00).2.1 rfl
  · exact ((C1_per_position_contributions [] []).2.2.2 0x61).2.2.1 (by decide)
  · exact ((C1_per_position_contributions [] []).2.2.2 0x07).2.2.2
      (by decide) (by decide) (by decide)

/-! ### C2: the uniqueness adjustment -/

/-- C2: only bytes at fully-known (mask 0xff) positions are recorded; the
effective length is the shorter input's length; when exactly one distinct
byte was recorded, a common sole value costs `10 * L` while any other sole
value adds 2; otherwise the score gains twice the number of distinct
recorded bytes.  The four-byte repeats of 0xcc, 0xff, 0x90 and 0x20 all
score alike, and `[0,0,0,0]` scores below `[0,0,0,1]`. -/
theorem C2_uniqueness_adjustment (values masks : List ℕ) :
    ((∀ m ∈ masks, m < 256) →
      (scanAtom values masks).present =
        (((values.zip masks).filter (fun bm => bm.2 = 0xff)).map Prod.fst).toFinset) ∧
    (scanAtom values masks).atomLen = Min.min values.length masks.length ∧
    (∀ v : ℕ, (scanAtom values masks).present = {v} →
      (v = 0x00 ∨ v = 0x20 ∨ v = 0x90 ∨ v = 0xcc ∨ v = 0xff) →
      masked_atom_quality values masks =
        (scanAtom values masks).q - 10 * ((scanAtom values masks).atomLen : ℤ)) ∧
    (∀ v : ℕ, (scanAtom values masks).present = {v} →
      ¬(v = 0x00 ∨ v = 0x20 ∨ v = 0x90 ∨ v = 0xcc ∨ v = 0xff) →
      masked_atom_quality values masks = (scanAtom values masks).q + 2) ∧
    ((scanAtom values masks).present.card ≠ 1 →
      masked_atom_quality values masks =
        (scanAtom values masks).q + 2 * ((scanAtom values masks).present.card : ℤ)) ∧
    atom_quality [0xcc, 0xcc, 0xcc, 0xcc] = atom_quality [0xff, 0xff, 0xff, 0xff] ∧
    atom_quality [0xcc, 0xcc, 0xcc, 0xcc] = atom_quality [0x90, 0x90, 0x90, 0x90] ∧
    atom_quality [0xcc, 0xcc, 0xcc, 0xcc] = atom_quality [0x20, 0x20, 0x20, 0x20] ∧
    atom_quality [0x00, 0x00, 0x00, 0x00] < atom_quality [0x00, 0x00, 0x00, 0x01] := by
  refine ⟨?_, scanAtom_atomLen values masks, ?_, ?_, ?_,
    by decide, by decide, by decide, by decide⟩
  · intro hm
    rw [scanAtom_present]
    unfold recordsOf
    have hcong : (values.zip masks).filter (fun bm => decide (countZeros8 bm.2 = 0)) =
        (values.zip masks).filter (fun bm => decide (bm.2 = 0xff)) := by
      apply List.filter_congr
      intro bm hbm
      have hmem : bm.2 ∈ masks := (List.of_mem_zip hbm).2
      have hlt : bm.2 < 256 := hm bm.2 hmem
      have hiff : countZeros8 bm.2 = 0 ↔ bm.2 = 0xff := by
        rw [← not_hasZeroBit_iff bm.2 hlt, ← countZeros8_pos_iff]
        omega
      simp only [decide_eq_decide]
      exact hiff
    rw [hcong]
  · intro v hp hv
    unfold masked_atom_quality uniqueAdjust
    rw [hp]
    have hcard : ({v} : Finset ℕ).card = 1 := Finset.card_singleton v
    rw [if_pos hcard, if_pos (by simp only [Finset.mem_singleton]; omega)]
    ring
  · intro v hp hv
    unfold masked_atom_quality uniqueAdjust
    rw [hp]
    have hcard : ({v} : Finset ℕ).card = 1 := Finset.card_singleton v
    rw [if_pos hcard, if_neg (by simp only [Finset.mem_singleton]; omega)]
  · intro hc
    unfold masked_atom_quality uniqueAdjust
    rw [if_neg hc]

/-- Witness for C2 at concrete inputs. -/
theorem C2_uniqueness_adjustment_witness :
    (scanAtom [0x01, 0x02, 0x03] [0xff, 0x0f, 0xff]).present =
      (([(0x01, 0xff), (0x02, 0x0f), (0x03, 0xff)].filter
        (fun bm => bm.2 = 0xff)).map Prod.fst).toFinset ∧
    masked_atom_quality [0x00, 0x00] [0xff, 0xff] =
      (scanAtom [0x00, 0x00] [0xff, 0xff]).q -
        10 * ((scanAtom [0x00, 0x00] [0xff, 0xff]).atomLen : ℤ) ∧
    masked_atom_quality [0x61, 0x61] [0xff, 0xff] =
      (scanAtom [0x61, 0x61] [0xff, 0xff]).q + 2 ∧
    masked_atom_quality [0x01, 0x02] [0xff, 0xff] =
      (scanAtom [0x01, 0x02] [0xff, 0xff]).q +
        2 * (((scanAtom [0x01, 0x02] [0xff, 0xff]).present.card : ℕ) : ℤ) := by
  refine ⟨?_, ?_, ?_, ?_⟩
  · have h := (C2_uniqueness_adjustment [0x01, 0x02, 0x03] [0xff, 0x0f, 0xff]).1
      (by decide)
    simpa using h
  · exact (C2_uniqueness_adjustment [0x00, 0x00] [0xff, 0xff]).2.2.1 0x00
      (by decide) (by decide)
  · exact (C2_uniqueness_adjustment [0x61, 0x61] [0xff, 0xff]).2.2.2.1 0x61
      (by decide) (by decide)
  · exact (C2_uniqueness_adjustment [0x01, 0x02] [0xff, 0xff]).2.2.2.2.1
      (by decide)

/-! ### C3: the comparator applies its rules in priority order -/

/-- C3: rule 1 — a strictly better worst-atom quality wins outright, with
no length field consulted; rule 2 — with equal minimum atom lengths the
higher quality wins and, at equal qualities, the strictly smaller `seq_len`
wins; rule 4 — when none of the earlier rules applies, A is better than B
iff A has the higher quality or the greater minimum atom length. -/
theorem C3_comparator_priority (a b : SeqQuality) :
    (a.min_atom_quality > b.min_atom_quality → a.pcmp b = some Ordering.gt) ∧
    (¬(a.min_atom_quality > b.min_atom_quality) →
      a.min_atom_len = b.min_atom_len →
      ((b.min_atom_quality > a.min_atom_quality → a.pcmp b = some Ordering.lt) ∧
       (a.min_atom_quality = b.min_atom_quality →
         ((a.seq_len < b.seq_len → a.pcmp b = some Ordering.gt) ∧
          (b.seq_len < a.seq_len → a.pcmp b = some Ordering.lt))))) ∧
    (¬(a.min_atom_quality > b.min_atom_quality) →
      a.min_atom_len ≠ b.min_atom_len →
      (a.min_atom_len + 1) % u32Mod ≠ b.min_atom_len →
      a.min_atom_len ≠ (b.min_atom_len + 1) % u32Mod →
      ((a.pcmp b = some Ordering.gt ↔
         (a.min_atom_quality > b.min_atom_quality ∨
          a.min_atom_len > b.min_atom_len)) ∧
       (a.pcmp b = some Ordering.lt ↔
         ¬(a.min_atom_quality > b.min_atom_quality ∨
           a.min_atom_len > b.min_atom_len)))) := by
  refine ⟨?_, ?_, ?_⟩
  · intro h
    unfold SeqQuality.pcmp
    rw [if_pos h]
  · intro h1 h2
    unfold SeqQuality.pcmp
    rw [if_neg h1, if_pos h2]
    constructor
    · intro hbq
      rw [if_neg (by omega), if_neg h1]
    · intro heq
      rw [if_pos heq]
      constructor
      · intro hlt
        rw [if_pos hlt]
      · intro hgt
        rw [if_neg (by omega)]
  · intro h1 h2 h3 h4
    unfold SeqQuality.pcmp
    rw [if_neg h1, if_neg h2, if_neg h3, if_neg h4]
    by_cases hg : a.min_atom_quality > b.min_atom_quality ∨
        a.min_atom_len > b.min_atom_len
    · rw [if_pos hg]
      constructor <;> simp [hg]
    · rw [if_neg hg]
      constructor <;> simp [hg]

/-- Witness for C3 at concrete inputs. -/
theorem C3_comparator_priority_witness :
    SeqQuality.pcmp ⟨5, 1, 10⟩ ⟨2, 9, 3⟩ = some Ordering.gt ∧
    SeqQuality.pcmp ⟨5, 4, 3⟩ ⟨2, 4, 7⟩ = some Ordering.lt ∧
    SeqQuality.pcmp ⟨2, 4, 7⟩ ⟨5, 4, 7⟩ = some Ordering.gt ∧
    SeqQuality.pcmp ⟨1, 5, 0⟩ ⟨1, 2, 0⟩ = some Ordering.gt := by
  refine ⟨?_, ?_, ?_, ?_⟩
  · exact (C3_comparator_priority ⟨5, 1, 10⟩ ⟨2, 9, 3⟩).1 (by decide)
  · exact ((C3_comparator_priority ⟨5, 4, 3⟩ ⟨2, 4, 7⟩).2.1 (by decide) rfl).1
      (by decide)
  · exact (((C3_comparator_priority ⟨2, 4, 7⟩ ⟨5, 4, 7⟩).2.1 (by decide) rfl).2
      rfl).1 (by decide)
  · exact ((C3_comparator_priority ⟨1, 5, 0⟩ ⟨1, 2, 0⟩).2.2 (by decide)
      (by decide) (by decide) (by decide)).1.mpr (by decide)

/-! ### C4: the one-byte-longer adjacency rule -/

/-- C4 counterexample: with A = `{seq_len: 1, min_atom_len: 2, quality: 0}`
and B = `{seq_len: 1, min_atom_len: 1, quality: 0}`, rules 1 and 2 do not
apply, A's worst atom is exactly one byte longer than B's, and
`A.seq_len * 256 <= B.seq_len` fails — yet the comparator judges A better,
contradicting the claim that A would be judged worse. -/
theorem C4_counterexample :
    ¬((⟨1, 2, 0⟩ : SeqQuality).min_atom_quality >
       (⟨1, 1, 0⟩ : SeqQuality).min_atom_quality) ∧
    (⟨1, 2, 0⟩ : SeqQuality).min_atom_len =
      (⟨1, 1, 0⟩ : SeqQuality).min_atom_len + 1 ∧
    ¬((⟨1, 2, 0⟩ : SeqQuality).seq_len * 256 ≤ (⟨1, 1, 0⟩ : SeqQuality).seq_len) ∧
    SeqQuality.pcmp ⟨1, 2, 0⟩ ⟨1, 1, 0⟩ = some Ordering.gt := by decide

/-- C4 amended: when rules 1 and 2 do not apply and A's worst atom is
exactly one byte longer than B's (as `u32` arithmetic), A is better exactly
when `A.seq_len < B.seq_len * 256`, and worse otherwise; when B's worst atom
is exactly one byte longer than A's, A is better exactly when
`A.seq_len * 256 <= B.seq_len`, and worse otherwise. -/
theorem C4_amended (a b : SeqQuality)
    (h1 : ¬(a.min_atom_quality > b.min_atom_quality))
    (h2 : a.min_atom_len ≠ b.min_atom_len) :
    (a.min_atom_len = (b.min_atom_len + 1) % u32Mod →
      ((a.seq_len < b.seq_len * 256 → a.pcmp b = some Ordering.gt) ∧
       (¬(a.seq_len < b.seq_len * 256) → a.pcmp b = some Ordering.lt))) ∧
    ((a.min_atom_len + 1) % u32Mod = b.min_atom_len →
      ((a.seq_len * 256 ≤ b.seq_len → a.pcmp b = some Ordering.gt) ∧
       (¬(a.seq_len * 256 ≤ b.seq_len) → a.pcmp b = some Ordering.lt))) := by
  constructor
  · intro h3
    have h3a : (a.min_atom_len + 1) % u32Mod ≠ b.min_atom_len := by
      simp only [u32Mod] at h3 ⊢
      omega
    unfold SeqQuality.pcmp
    rw [if_neg h1, if_neg h2, if_neg h3a, if_pos h3]
    exact ⟨fun h => by rw [if_pos h], fun h => by rw [if_neg h]⟩
  · intro h3
    unfold SeqQuality.pcmp
    rw [if_neg h1, if_neg h2, if_pos h3]
    exact ⟨fun h => by rw [if_pos h], fun h => by rw [if_neg h]⟩

/-- Witness for the amended C4 at concrete inputs. -/
theorem C4_amended_witness :
    SeqQuality.pcmp ⟨1, 2, 0⟩ ⟨1, 1, 0⟩ = some Ordering.gt ∧
    SeqQuality.pcmp ⟨1, 1, 0⟩ ⟨256, 2, 0⟩ = some Ordering.gt ∧
    SeqQuality.pcmp ⟨2, 1, 0⟩ ⟨256, 2, 0⟩ = some Ordering.lt := by
  refine ⟨?_, ?_, ?_⟩
  · exact ((C4_amended ⟨1, 2, 0⟩ ⟨1, 1, 0⟩ (by decide) (by decide)).1
      (by decide)).1 (by decide)
  · exact ((C4_amended ⟨1, 1, 0⟩ ⟨256, 2, 0⟩ (by decide) (by decide)).2
      (by decide)).1 (by decide)
  · exact ((C4_amended ⟨2, 1, 0⟩ ⟨256, 2, 0⟩ (by decide) (by decide)).2
      (by decide)).2 (by decide)

/-! ### C5: the sentinel worst value -/

/-- All fields of a `SeqQuality` lie within their machine ranges
(`u32`, `u32`, `i32`), so the value denotes a value of the Rust type. -/
def SeqQuality.inRange (q : SeqQuality) : Prop :=
  q.seq_len < u32Mod ∧ q.min_atom_len < u32Mod ∧
  i32Min ≤ q.min_atom_quality ∧ q.min_atom_quality ≤ 2147483647

/-- One step of the selection reduction: keep whichever of accumulator and
candidate the comparator ranks higher. -/
def pickBetter (acc c : SeqQuality) : SeqQuality :=
  if SeqQuality.pcmp c acc = some Ordering.gt then c else acc

/-- Modelled from the spec: step 3 of the Selector reduces all candidates,
seeded with the sentinel worst value, via the pairwise comparator (the
reduction itself is outside the scored core in `quality.rs`). -/
def reduceMax (cands : List SeqQuality) : SeqQuality :=
  cands.foldl pickBetter SeqQuality.min

/-- C5 counterexample: for `q = {seq_len: 2^24, min_atom_len: u32::MAX,
min_atom_quality: i32::MIN}`, the `min_atom_len + 1` of the comparator wraps
around, the sentinel is judged greater than `q`, and `q` (which is not the
sentinel) is judged less than the sentinel — so the sentinel does not lose
every comparison. -/
theorem C5_counterexample :
    SeqQuality.pcmp SeqQuality.min ⟨16777216, u32Max, i32Min⟩ =
      some Ordering.gt ∧
    (⟨16777216, u32Max, i32Min⟩ : SeqQuality) ≠ SeqQuality.min ∧
    SeqQuality.pcmp ⟨16777216, u32Max, i32Min⟩ SeqQuality.min =
      some Ordering.lt := by decide

lemma foldl_pickBetter_ne_min (l : List SeqQuality) :
    ∀ acc : SeqQuality, acc ≠ SeqQuality.min →
      (∀ c ∈ l, c ≠ SeqQuality.min) → l.foldl pickBetter acc ≠ SeqQuality.min := by
  induction l with
  | nil => intro acc hacc _; simpa using hacc
  | cons c t ih =>
    intro acc hacc hl
    simp only [List.foldl_cons]
    apply ih
    · unfold pickBetter
      split_ifs
      · exact hl c (List.mem_cons_self c t)
      · exact hacc
    · intro x hx
      exact hl x (List.mem_cons_of_mem _ hx)

/-- C5 amended: for every `q` of the `SeqQuality` type whose
`min_atom_len` is not `u32::MAX` (the one case where the comparator's
`+ 1` wraps), `pcmp(sentinel, q) = Some(Less)`, and for such `q` different
from the sentinel `pcmp(q, sentinel) = Some(Greater)`; consequently a
reduction to the maximum seeded with the sentinel never yields the sentinel
once at least one such real candidate is compared. -/
theorem C5_amended :
    (∀ q : SeqQuality, q.inRange → q.min_atom_len ≠ u32Max →
      SeqQuality.pcmp SeqQuality.min q = some Ordering.lt) ∧
    (∀ q : SeqQuality, q.inRange → q.min_atom_len ≠ u32Max →
      q ≠ SeqQuality.min → SeqQuality.pcmp q SeqQuality.min = some Ordering.gt) ∧
    (∀ cands : List SeqQuality, cands ≠ [] →
      (∀ c ∈ cands, c.inRange ∧ c.min_atom_len ≠ u32Max ∧ c ≠ SeqQuality.min) →
      reduceMax cands ≠ SeqQuality.min) := by
  have part2 : ∀ q : SeqQuality, q.inRange → q.min_atom_len ≠ u32Max →
      q ≠ SeqQuality.min → SeqQuality.pcmp q SeqQuality.min = some Ordering.gt := by
    rintro ⟨s, l, mq⟩ ⟨hr1, hr2, hr3, hr4⟩ hlen hne
    simp only [SeqQuality.min, ne_eq, SeqQuality.mk.injEq, not_and] at hne
    unfold SeqQuality.pcmp SeqQuality.min
    simp only [u32Mod, u32Max, i32Min] at *
    split_ifs <;> first | rfl | omega
  refine ⟨?_, part2, ?_⟩
  · rintro ⟨s, l, mq⟩ ⟨hr1, hr2, hr3, hr4⟩ hlen
    unfold SeqQuality.pcmp SeqQuality.min
    simp only [u32Mod, u32Max, i32Min] at *
    split_ifs <;> first | rfl | omega
  · intro cands hne hall
    cases cands with
    | nil => exact absurd rfl hne
    | cons c t =>
      unfold reduceMax
      simp only [List.foldl_cons]
      have hc := hall c (List.mem_cons_self c t)
      have hstep : pickBetter SeqQuality.min c = c := by
        unfold pickBetter
        rw [if_pos (part2 c hc.1 hc.2.1 hc.2.2)]
      rw [hstep]
      exact foldl_pickBetter_ne_min t c hc.2.2
        (fun x hx => (hall x (List.mem_cons_of_mem _ hx)).2.2)

/-- Witness for the amended C5 at concrete inputs. -/
theorem C5_amended_witness :
    SeqQuality.pcmp SeqQuality.min ⟨1, 1, 0⟩ = some Ordering.lt ∧
    SeqQuality.pcmp ⟨1, 1, 0⟩ SeqQuality.min = some Ordering.gt ∧
    reduceMax [⟨1, 1, 0⟩] ≠ SeqQuality.min := by
  refine ⟨?_, ?_, ?_⟩
  · exact C5_amended.1 ⟨1, 1, 0⟩ (by constructor <;> simp [u32Mod, i32Min])
      (by decide)
  · exact C5_amended.2.1 ⟨1, 1, 0⟩ (by constructor <;> simp [u32Mod, i32Min])
      (by decide) (by decide)
  · exact C5_amended.2.2 [⟨1, 1, 0⟩] (by simp)
      (by
        intro c hc
        simp only [List.mem_singleton] at hc
        subst hc
        exact ⟨(by constructor <;> simp [u32Mod, i32Min]), by decide, by decide⟩)

/-! ### C7: the comparator is not antisymmetric and never returns Equal -/

/-- C7: `pcmp` is not antisymmetric — `A = {1, 3, 5}` and `B = {1, 2, 10}`
are each judged greater than the other; moreover on all inputs it returns
`Some(Greater)` or `Some(Less)`, never `Some(Equal)` or `None`, and
comparing any value with itself yields `Some(Less)`. -/
theorem C7_not_antisymmetric :
    SeqQuality.pcmp ⟨1, 3, 5⟩ ⟨1, 2, 10⟩ = some Ordering.gt ∧
    SeqQuality.pcmp ⟨1, 2, 10⟩ ⟨1, 3, 5⟩ = some Ordering.gt ∧
    (∀ a b : SeqQuality,
      a.pcmp b = some Ordering.gt ∨ a.pcmp b = some Ordering.lt) ∧
    (∀ a b : SeqQuality, a.pcmp b ≠ some Ordering.eq ∧ a.pcmp b ≠ none) ∧
    (∀ a : SeqQuality, a.pcmp a = some Ordering.lt) := by
  have hdisj : ∀ a b : SeqQuality,
      a.pcmp b = some Ordering.gt ∨ a.pcmp b = some Ordering.lt := by
    intro a b
    unfold SeqQuality.pcmp
    split_ifs <;> simp
  refine ⟨by decide, by decide, hdisj, ?_, ?_⟩
  · intro a b
    rcases hdisj a b with h | h <;> rw [h] <;> exact ⟨by simp, by simp⟩
  · intro a
    unfold SeqQuality.pcmp
    split_ifs <;> first | rfl | omega

/-! ### C8: appending a fully-known byte -/

lemma scanStep_ff (s : ScanState) (b : ℕ) :
    scanStep s (b, 0xff) =
      ⟨s.q + byteContrib b, insert b s.present, s.atomLen + 1⟩ := by
  unfold scanStep
  have hproj : countZeros8 (Prod.mk b (0xff : ℕ)).2 = countZeros8 0xff := rfl
  rw [hproj, if_neg (by decide : ¬ 0 < countZeros8 (0xff : ℕ))]

lemma byteContrib_ge_six (b : ℕ) : 6 ≤ byteContrib b := by
  unfold byteContrib
  split_ifs <;> norm_num

lemma zip_append_single (v m : List ℕ) (x y : ℕ) (h : m.length ≤ v.length) :
    ∃ b : ℕ, (v ++ [x]).zip (m ++ [y]) = v.zip m ++ [(b, y)] := by
  induction m generalizing v with
  | nil =>
    cases v with
    | nil => exact ⟨x, rfl⟩
    | cons vh vt => exact ⟨vh, by simp⟩
  | cons mh mt ih =>
    cases v with
    | nil => simp at h
    | cons vh vt =>
      have h' : mt.length ≤ vt.length := by simpa using h
      obtain ⟨b, hb⟩ := ih vt h'
      exact ⟨b, by simp [hb]⟩

/-- C8 counterexample: the general monotonicity fails when the mask input
is longer than the value input.  Here the fully-known positions already
hold two distinct values (0x01 and 0x02), a byte 0x03 with mask 0xff is
appended to the two inputs, yet the appended value byte pairs with the old
surplus mask 0x00 and the score strictly drops. -/
theorem C8_counterexample :
    2 ≤ (scanAtom [0x01, 0x02] [0xff, 0xff, 0x00]).present.card ∧
    masked_atom_quality ([0x01, 0x02] ++ [0x03]) ([0xff, 0xff, 0x00] ++ [0xff]) <
      masked_atom_quality [0x01, 0x02] [0xff, 0xff, 0x00] := by decide

/-- C8 amended: `atom_quality [0,0,0,1] > atom_quality [0,0,1]`; and for
every `(values, masks)` input whose mask input is not longer than its value
input and whose fully-known positions already hold at least two distinct
byte values, appending a byte with mask 0xff strictly increases
`masked_atom_quality`. -/
theorem C8_append_increases (values masks : List ℕ) (x : ℕ)
    (hlen : masks.length ≤ values.length)
    (hcard : 2 ≤ (scanAtom values masks).present.card) :
    masked_atom_quality values masks <
      masked_atom_quality (values ++ [x]) (masks ++ [0xff]) ∧
    atom_quality [0x00, 0x00, 0x01] < atom_quality [0x00, 0x00, 0x00, 0x01] := by
  refine ⟨?_, by decide⟩
  obtain ⟨b, hb⟩ := zip_append_single values masks x 0xff hlen
  have hscan : scanAtom (values ++ [x]) (masks ++ [0xff]) =
      scanStep (scanAtom values masks) (b, 0xff) := by
    unfold scanAtom
    rw [hb, List.foldl_append]
    simp
  unfold masked_atom_quality
  rw [hscan, scanStep_ff]
  dsimp only
  set s := scanAtom values masks with hs
  have hc1 : s.present.card ≠ 1 := by omega
  have hins_le : s.present.card ≤ (insert b s.present).card :=
    Finset.card_le_card (Finset.subset_insert b s.present)
  have hc2 : (insert b s.present).card ≠ 1 := by omega
  unfold uniqueAdjust
  rw [if_neg hc1, if_neg hc2]
  have h6 := byteContrib_ge_six b
  have hcast : (s.present.card : ℤ) ≤ ((insert b s.present).card : ℤ) := by
    exact_mod_cast hins_le
  linarith

/-- Witness for the amended C8 at concrete inputs. -/
theorem C8_append_increases_witness :
    masked_atom_quality [0x01, 0x02] [0xff, 0xff] <
      masked_atom_quality ([0x01, 0x02] ++ [0x03]) ([0xff, 0xff] ++ [0xff]) :=
  (C8_append_increases [0x01, 0x02] [0xff, 0xff] 0x03 (by decide) (by decide)).1

/-! ### C9: class symmetry and case-insensitivity -/

/-- A byte of the general contribution class: not zero, not a letter, not
one of the four common bytes. -/
def isGeneralByte (b : ℕ) : Prop :=
  b ≠ 0x00 ∧ ¬ isLetterByte b ∧ ¬(b = 0x20 ∨ b = 0x90 ∨ b = 0xcc ∨ b = 0xff)

lemma atom_quality_pair_comm (b1 b2 : ℕ) :
    atom_quality [b1, b2] = atom_quality [b2, b1] := by
  unfold atom_quality masked_atom_quality scanAtom
  simp only [List.length_cons, List.length_nil, List.replicate,
    List.zip_cons_cons, List.zip_nil_right, List.foldl_cons, List.foldl_nil,
    scanStep_ff]
  rw [Finset.Insert.comm]
  ring

/-- C9: for distinct bytes of the same per-byte contribution class (both
letters, both common bytes, or both general) the two-byte atom scores are
order-independent, and `atom_quality "abcd" = atom_quality "ABCD"`. -/
theorem C9_same_class_symmetry (b1 b2 : ℕ) (_hb1 : b1 < 256) (_hb2 : b2 < 256)
    (_hne : b1 ≠ b2)
    (_hclass : (isLetterByte b1 ∧ isLetterByte b2) ∨
      ((b1 = 0x20 ∨ b1 = 0x90 ∨ b1 = 0xcc ∨ b1 = 0xff) ∧
       (b2 = 0x20 ∨ b2 = 0x90 ∨ b2 = 0xcc ∨ b2 = 0xff)) ∨
      (isGeneralByte b1 ∧ isGeneralByte b2)) :
    atom_quality [b1, b2] = atom_quality [b2, b1] ∧
    atom_quality [0x61, 0x62, 0x63, 0x64] =
      atom_quality [0x41, 0x42, 0x43, 0x44] :=
  ⟨atom_quality_pair_comm b1 b2, by decide⟩

/-- Witness for C9 at concrete inputs. -/
theorem C9_same_class_symmetry_witness :
    atom_quality [0x61, 0x62] = atom_quality [0x62, 0x61] :=
  (C9_same_class_symmetry 0x61 0x62 (by decide) (by decide) (by decide)
    (Or.inl ⟨by decide, by decide⟩)).1

/-! ### C10: totality, truncation and the all-0xff convenience variant -/

lemma masked_take_min (v m : List ℕ) :
    masked_atom_quality v m =
      masked_atom_quality (v.take (Min.min v.length m.length))
        (m.take (Min.min v.length m.length)) := by
  have hzip : (v.take (Min.min v.length m.length)).zip
      (m.take (Min.min v.length m.length)) = v.zip m := by
    have h1 : (v.take (Min.min v.length m.length)).zip
        (m.take (Min.min v.length m.length)) =
        (v.zip m).take (Min.min v.length m.length) :=
      (List.take_zipWith ..).symm
    rw [h1]
    apply List.take_of_length_le
    rw [List.length_zip]
  have hlv : (v.take (Min.min v.length m.length)).length =
      Min.min v.length m.length := by
    rw [List.length_take]
    omega
  have hlm : (m.take (Min.min v.length m.length)).length =
      Min.min v.length m.length := by
    rw [List.length_take]
    omega
  rw [masked_atom_quality_eq, masked_atom_quality_eq, hzip, hlv, hlm]
  simp

/-- C10: `masked_atom_quality` is total, depends only on the first
`min(|values|, |masks|)` positions (truncating both inputs there changes
nothing), returns exactly 0 with no recorded byte when either input is
empty, and `atom_quality` equals `masked_atom_quality` against any all-0xff
mask sequence covering the values. -/
theorem C10_totality_truncation (values masks : List ℕ) (n : ℕ)
    (hn : values.length ≤ n) :
    masked_atom_quality values masks =
      masked_atom_quality (values.take (Min.min values.length masks.length))
        (masks.take (Min.min values.length masks.length)) ∧
    masked_atom_quality values [] = 0 ∧
    masked_atom_quality [] masks = 0 ∧
    (scanAtom values []).present.card = 0 ∧
    (scanAtom [] masks).present.card = 0 ∧
    atom_quality values = masked_atom_quality values (List.replicate n 0xff) := by
  refine ⟨masked_take_min values masks, ?_, ?_, ?_, ?_, ?_⟩
  · rw [masked_atom_quality_eq]
    simp [recordsOf, uniqueAdjust]
  · rw [masked_atom_quality_eq]
    simp [recordsOf, uniqueAdjust]
  · rw [scanAtom_present]
    simp [recordsOf]
  · rw [scanAtom_present]
    simp [recordsOf]
  · unfold atom_quality
    have h := masked_take_min values (List.replicate n 0xff)
    have hmin : Min.min values.length (List.replicate n 0xff).length =
        values.length := by
      rw [List.length_replicate]
      omega
    rw [hmin] at h
    rw [List.take_length, List.take_replicate] at h
    have hmin2 : Min.min values.length n = values.length := by omega
    rw [hmin2] at h
    exact h.symm

/-- Witness for C10 at concrete inputs. -/
theorem C10_totality_truncation_witness :
    atom_quality [0x01, 0x02] =
      masked_atom_quality [0x01, 0x02] (List.replicate 3 0xff) :=
  (C10_totality_truncation [0x01, 0x02] [0xff] 3 (by decide)).2.2.2.2.2

/-! ### C6: seq_quality and the Option ordering -/

/-- Modelled from the spec: one step of the reduction over optional
candidates, keeping whichever of accumulator and candidate the derived
Option ordering ranks higher (the reduction itself is outside
`quality.rs`). -/
def pickBetterOpt (acc c : Option SeqQuality) : Option SeqQuality :=
  if optCmp c acc = some Ordering.gt then c else acc

/-- C6 counterexample: a bounded sequence of `2^32` (empty) literals has its
literal count truncated by the `as u32` cast, so the returned `seq_len` is
0, not the number of literals. -/
lemma seq_quality_seq_len (lits : List (List ℕ)) :
    (seq_quality (some lits)).map SeqQuality.seq_len =
      some (lits.length % u32Mod) := rfl

theorem C6_counterexample :
    (seq_quality (some (List.replicate 4294967296 ([] : List ℕ)))).map
      SeqQuality.seq_len ≠ some 4294967296 := by
  rw [seq_quality_seq_len, List.length_replicate]
  simp only [u32Mod]
  intro h
  exact absurd (Option.some.inj h) (by norm_num)

/-- C6 amended: `seq_quality` returns `None` exactly for an unbounded
sequence; `Some {seq_len = 0, min_atom_len = 0, min_atom_quality = i32::MIN}`
for a bounded empty sequence; and for a bounded nonempty sequence whose
literal count and literal lengths fit in `u32`, `Some` of the literal
count, the minimum literal length and the minimum literal quality (the two
length fields are truncated through an `as u32` cast for larger inputs).
`None` loses against every present `SeqQuality` under the Option ordering,
and a reduction over only absent candidates yields `None`. -/
theorem C6_amended :
    seq_quality (none : LitSeq) = none ∧
    (∀ lits : List (List ℕ), seq_quality (some lits) ≠ none) ∧
    seq_quality (some ([] : List (List ℕ))) = some ⟨0, 0, i32Min⟩ ∧
    (∀ lits : List (List ℕ), lits ≠ [] → lits.length < u32Mod →
      (∀ l ∈ lits, l.length < u32Mod) →
      ∃ q : SeqQuality, seq_quality (some lits) = some q ∧
        q.seq_len = lits.length ∧
        (∃ l ∈ lits, q.min_atom_len = l.length) ∧
        (∀ l ∈ lits, q.min_atom_len ≤ l.length) ∧
        (∃ l ∈ lits, q.min_atom_quality = atom_quality l) ∧
        (∀ l ∈ lits, q.min_atom_quality ≤ atom_quality l)) ∧
    (∀ q : SeqQuality, optCmp none (some q) = some Ordering.lt) ∧
    (∀ q : SeqQuality, optCmp (some q) none = some Ordering.gt) ∧
    (∀ qs : List (Option SeqQuality), (∀ o ∈ qs, o = none) →
      qs.foldl pickBetterOpt none = none) := by
  refine ⟨rfl, ?_, ?_, ?_, fun q => rfl, fun q => rfl, ?_⟩
  · intro lits
    simp [seq_quality]
  · simp [seq_quality, listMinD]
  · intro lits hne hlen hall
    refine ⟨_, rfl, ?_, ?_, ?_, ?_, ?_⟩
    · simp only
      exact Nat.mod_eq_of_lt hlen
    · have hmapne : lits.map List.length ≠ [] := by
        simpa using hne
      have hmem := listMinD_mem 0 (lits.map List.length) hmapne
      rw [List.mem_map] at hmem
      obtain ⟨l, hl, hval⟩ := hmem
      refine ⟨l, hl, ?_⟩
      simp only
      rw [← hval]
      exact Nat.mod_eq_of_lt (hall l hl)
    · intro l hl
      simp only
      have hle := listMinD_le 0 (lits.map List.length) l.length
        (List.mem_map_of_mem _ hl)
      exact le_trans (Nat.mod_le _ _) hle
    · have hmapne : lits.map atom_quality ≠ [] := by
        simpa using hne
      have hmem := listMinD_mem i32Min (lits.map atom_quality) hmapne
      rw [List.mem_map] at hmem
      obtain ⟨l, hl, hval⟩ := hmem
      exact ⟨l, hl, hval.symm⟩
    · intro l hl
      exact listMinD_le i32Min (lits.map atom_quality) (atom_quality l)
        (List.mem_map_of_mem _ hl)
  · intro qs hall
    induction qs with
    | nil => rfl
    | cons o t ih =>
      have ho : o = none := hall o (List.mem_cons_self o t)
      subst ho
      simp only [List.foldl_cons]
      have hstep : pickBetterOpt none none = none := rfl
      rw [hstep]
      exact ih (fun x hx => hall x (List.mem_cons_of_mem _ hx))

/-- Witness for the amended C6 at concrete inputs. -/
theorem C6_amended_witness :
    (∃ q : SeqQuality, seq_quality (some [[0x61]]) = some q ∧
      q.seq_len = [[0x61]].length ∧
      (∃ l ∈ [[0x61]], q.min_atom_len = l.length) ∧
      (∀ l ∈ [[0x61]], q.min_atom_len ≤ l.length) ∧
      (∃ l ∈ [[0x61]], q.min_atom_quality = atom_quality l) ∧
      (∀ l ∈ [[0x61]], q.min_atom_quality ≤ atom_quality l)) ∧
    [none, none].foldl pickBetterOpt none = none := by
  constructor
  · exact C6_amended.2.2.2.1 [[0x61]] (by decide) (by decide) (by decide)
  · exact C6_amended.2.2.2.2.2.2 [none, none] (by simp)
